import Mathlib

/-!
Shallow embedding of the DeBros CLI deployment-registry core
(src/services/network.ts and the command wrappers), together with
theorems checking the natural-language specification against it.

Events stored in the append-only `application_data` feed are modelled as
`AppData` records; the log is a `List AppData` in store (append) order.
ISO-8601 timestamp strings, always compared through `new Date(...)`, are
modelled as natural numbers.  Pub/sub publishes and feed appends are
modelled as explicit effect traces; a per-topic oracle decides whether a
publish succeeds (the underlying transport may throw).
-/

namespace DebrosCLI

/-- `AppData` (src/services/network.ts, lines 272-280): the record appended to
the `application_data` feed.  `status` is one of "running" | "stopped" |
"unknown". -/
structure AppData where
  appName : String
  cid : String
  version : String
  timestamp : Nat
  deployed : Bool
  domain : Option String
  status : String
deriving Repr, DecidableEq

abbrev Log := List AppData

/-- `config.defaultDomain` (src/utils/config.ts, line 35). -/
def defaultDomain : String := "debros.sol"

/-! ### The materializer's Map (JS `Map<string, AppData>`)

`getAllApps` builds a `Map` keyed by `appName`.  We model it as an
association list in insertion order; `amSet` is `Map.set` (update in place
if present, else append), `amGet` is `Map.get`. -/

def amGet : List (String × AppData) → String → Option AppData
  | [], _ => none
  | (k, v) :: rest, name => if k = name then some v else amGet rest name

def amSet : List (String × AppData) → String → AppData → List (String × AppData)
  | [], k, v => [(k, v)]
  | (k', v') :: rest, k, v =>
    if k' = k then (k, v) :: rest else (k', v') :: amSet rest k v

/-- One step of the fold in `getAllApps` (src/services/network.ts, lines
607-615): keep the stored record unless this entry's timestamp is strictly
greater. -/
def getAllAppsStep (m : List (String × AppData)) (e : AppData) :
    List (String × AppData) :=
  match amGet m e.appName with
  | none => amSet m e.appName e
  | some cur => if cur.timestamp < e.timestamp then amSet m e.appName e else m

/-- The `appMap` built by `getAllApps` (src/services/network.ts, lines
604-615): entries are processed in reverse store order (newest first). -/
def getAllAppsMap (log : Log) : List (String × AppData) :=
  log.reverse.foldl getAllAppsStep []

/-- `getAllApps` (src/services/network.ts, lines 593-635): the values of
`appMap`. -/
def getAllApps (log : Log) : List AppData :=
  (getAllAppsMap log).map Prod.snd

/-! ### Specification-side selection rule (spec §4.2)

A second definition written from the spec's words, to be compared with the
code: "Within a group, select the event with the greatest `timestamp`;
ties broken by store order (last-appended wins)." -/

/-- Scanning in reverse store order, replace only on strictly greater
timestamp (so the first entry seen, i.e. the last appended, wins ties). -/
def pickFirstMax (acc : Option AppData) (e : AppData) : Option AppData :=
  match acc with
  | none => some e
  | some cur => if cur.timestamp < e.timestamp then some e else some cur

/-- Scanning in store order, replace on greater-or-equal timestamp (so the
last appended among maximal timestamps wins). -/
def pickLastMax (acc : Option AppData) (e : AppData) : Option AppData :=
  match acc with
  | none => some e
  | some cur => if cur.timestamp ≤ e.timestamp then some e else some cur

/-- Spec-side (§4.2): among the events of the group of `name`, the event
with the greatest timestamp, ties broken by store order, last-appended
wins. -/
def selectLatestSpec (log : Log) (name : String) : Option AppData :=
  (log.filter (fun e => e.appName = name)).foldl pickLastMax none

/-! ### Lemmas about the association map -/

theorem amGet_amSet (m : List (String × AppData)) (k name : String) (v : AppData) :
    amGet (amSet m k v) name = if k = name then some v else amGet m name := by
  induction m with
  | nil => simp [amSet, amGet]
  | cons p rest ih =>
    obtain ⟨k', v'⟩ := p
    by_cases hk : k' = k
    · subst hk
      by_cases hn : k' = name <;> simp [amSet, amGet, hn]
    · by_cases hn : k' = name
      · subst hn
        have : ¬ k = k' := fun h => hk h.symm
        simp [amSet, amGet, hk, this]
      · simp [amSet, amGet, hk, hn, ih]

theorem amGet_step (m : List (String × AppData)) (e : AppData) (name : String) :
    amGet (getAllAppsStep m e) name =
      if e.appName = name then pickFirstMax (amGet m name) e else amGet m name := by
  unfold getAllAppsStep pickFirstMax
  by_cases hn : e.appName = name
  · cases hm : amGet m e.appName with
    | none => simp [amGet_amSet, hn, hn ▸ hm]
    | some cur =>
      by_cases hlt : cur.timestamp < e.timestamp
      · simp [hlt, amGet_amSet, hn, hn ▸ hm]
      · simp [hlt, hn ▸ hm, hn]
  · cases hm : amGet m e.appName with
    | none => simp [amGet_amSet, hn]
    | some cur =>
      by_cases hlt : cur.timestamp < e.timestamp
      · simp [hlt, amGet_amSet, hn]
      · simp [hlt, hn]

theorem amGet_foldl (l : List AppData) (m : List (String × AppData)) (name : String) :
    amGet (l.foldl getAllAppsStep m) name =
      (l.filter (fun e => e.appName = name)).foldl pickFirstMax (amGet m name) := by
  induction l generalizing m with
  | nil => simp
  | cons e rest ih =>
    by_cases hn : e.appName = name
    · simp [List.foldl_cons, List.filter_cons, hn, ih, amGet_step]
    · simp [List.foldl_cons, List.filter_cons, hn, ih, amGet_step]

/-! ### The fold-reversal argument for last-writer-wins -/

theorem pickLastMax_some (l : List AppData) (v : AppData) :
    ∃ c, l.foldl pickLastMax (some v) = some c ∧ v.timestamp ≤ c.timestamp := by
  induction l generalizing v with
  | nil => exact ⟨v, rfl, le_refl _⟩
  | cons e rest ih =>
    by_cases h : v.timestamp ≤ e.timestamp
    · obtain ⟨c, hc, hle⟩ := ih e
      exact ⟨c, by simpa [pickLastMax, h] using hc, le_trans h hle⟩
    · obtain ⟨c, hc, hle⟩ := ih v
      exact ⟨c, by simpa [pickLastMax, h] using hc, hle⟩

theorem foldl_pickLastMax_cons (l : List AppData) (x : AppData) :
    List.foldl pickLastMax none (x :: l) = pickFirstMax (List.foldl pickLastMax none l) x := by
  induction l generalizing x with
  | nil => simp [pickLastMax, pickFirstMax]
  | cons y ys ih =>
    by_cases hxy : x.timestamp ≤ y.timestamp
    · have h1 : List.foldl pickLastMax none (x :: y :: ys) =
          List.foldl pickLastMax (some y) ys := by
        simp [pickLastMax, hxy]
      obtain ⟨c, hc, hyc⟩ := pickLastMax_some ys y
      have h2 : List.foldl pickLastMax none (y :: ys) = some c := by
        simpa [pickLastMax] using hc
      have hcx : ¬ c.timestamp < x.timestamp := by omega
      rw [h1, hc, h2]
      simp [pickFirstMax, hcx]
    · have h1 : List.foldl pickLastMax none (x :: y :: ys) =
          List.foldl pickLastMax none (x :: ys) := by
        simp [pickLastMax, hxy]
      rw [h1, ih x, ih y]
      cases hm : List.foldl pickLastMax none ys with
      | none => simp [pickFirstMax, hxy, show y.timestamp < x.timestamp by omega]
      | some c =>
        by_cases hcy : c.timestamp < y.timestamp
        · simp [pickFirstMax, hcy, show c.timestamp < x.timestamp by omega,
            show y.timestamp < x.timestamp by omega]
        · simp [pickFirstMax, hcy]

theorem foldl_pickFirstMax_reverse (l : List AppData) :
    List.foldl pickFirstMax none l.reverse = List.foldl pickLastMax none l := by
  induction l with
  | nil => rfl
  | cons x xs ih =>
    rw [List.reverse_cons, List.foldl_append, ih, foldl_pickLastMax_cons]
    rfl

theorem amGet_getAllAppsMap (log : Log) (name : String) :
    amGet (getAllAppsMap log) name = selectLatestSpec log name := by
  unfold getAllAppsMap selectLatestSpec
  rw [amGet_foldl]
  show List.foldl pickFirstMax none (log.reverse.filter _) = _
  rw [List.filter_reverse, foldl_pickFirstMax_reverse]

/-! ### Properties of the spec-side selection -/

theorem foldl_pickLastMax_mem_max (l : List AppData) :
    ∀ c, List.foldl pickLastMax none l = some c →
      c ∈ l ∧ ∀ e ∈ l, e.timestamp ≤ c.timestamp := by
  have key : ∀ (l : List AppData) (v : AppData) (c : AppData),
      List.foldl pickLastMax (some v) l = some c →
      (c = v ∨ c ∈ l) ∧ v.timestamp ≤ c.timestamp ∧
        ∀ e ∈ l, e.timestamp ≤ c.timestamp := by
    intro l
    induction l with
    | nil =>
      intro v c h
      simp only [List.foldl_nil, Option.some.injEq] at h
      subst h
      exact ⟨Or.inl rfl, le_refl _, by simp⟩
    | cons e rest ih =>
      intro v c h
      by_cases he : v.timestamp ≤ e.timestamp
      · have h' : List.foldl pickLastMax (some e) rest = some c := by
          simpa [pickLastMax, he] using h
        obtain ⟨hmem, hle, hall⟩ := ih e c h'
        refine ⟨?_, le_trans he hle, ?_⟩
        · rcases hmem with h1 | h1
          · exact Or.inr (by simp [h1])
          · exact Or.inr (List.mem_cons_of_mem _ h1)
        · intro x hx
          rcases List.mem_cons.mp hx with h1 | h1
          · exact h1 ▸ hle
          · exact hall x h1
      · have h' : List.foldl pickLastMax (some v) rest = some c := by
          simpa [pickLastMax, he] using h
        obtain ⟨hmem, hle, hall⟩ := ih v c h'
        refine ⟨?_, hle, ?_⟩
        · rcases hmem with h1 | h1
          · exact Or.inl h1
          · exact Or.inr (List.mem_cons_of_mem _ h1)
        · intro x hx
          rcases List.mem_cons.mp hx with h1 | h1
          · subst h1; omega
          · exact hall x h1
  intro c h
  cases l with
  | nil => simp at h
  | cons e rest =>
    have h' : List.foldl pickLastMax (some e) rest = some c := by
      simpa [pickLastMax] using h
    obtain ⟨hmem, _, hall⟩ := key rest e c h'
    refine ⟨?_, ?_⟩
    · rcases hmem with h1 | h1
      · simp [h1]
      · exact List.mem_cons_of_mem _ h1
    · intro x hx
      rcases List.mem_cons.mp hx with h1 | h1
      · obtain ⟨_, hl, _⟩ := key rest e c h'
        exact h1 ▸ hl
      · exact hall x h1

theorem selectLatestSpec_isSome (log : Log) (name : String)
    (h : ∃ e ∈ log, e.appName = name) :
    ∃ sel, selectLatestSpec log name = some sel := by
  obtain ⟨e, he, hn⟩ := h
  have hmem : e ∈ log.filter (fun e => e.appName = name) := by
    simp [List.mem_filter, he, hn]
  unfold selectLatestSpec
  cases hf : log.filter (fun e => e.appName = name) with
  | nil => rw [hf] at hmem; simp at hmem
  | cons x xs =>
    obtain ⟨c, hc, _⟩ := pickLastMax_some xs x
    exact ⟨c, by simpa [pickLastMax] using hc⟩

theorem selectLatestSpec_spec (log : Log) (name : String) (sel : AppData)
    (h : selectLatestSpec log name = some sel) :
    sel ∈ log ∧ sel.appName = name ∧
      ∀ e ∈ log, e.appName = name → e.timestamp ≤ sel.timestamp := by
  unfold selectLatestSpec at h
  obtain ⟨hmem, hmax⟩ := foldl_pickLastMax_mem_max _ sel h
  have hmem' := List.mem_filter.mp hmem
  refine ⟨hmem'.1, by simpa using hmem'.2, ?_⟩
  intro e he hn
  exact hmax e (by simp [List.mem_filter, he, hn])

/-! ### Well-formedness of the materializer's map -/

/-- The JS `Map` invariant: keys are distinct and every stored record's
`appName` equals its key. -/
def mapWF (m : List (String × AppData)) : Prop :=
  (m.map Prod.fst).Nodup ∧ ∀ p ∈ m, p.2.appName = p.1

theorem keys_amSet (m : List (String × AppData)) (k : String) (v : AppData) :
    (amSet m k v).map Prod.fst =
      if k ∈ m.map Prod.fst then m.map Prod.fst else m.map Prod.fst ++ [k] := by
  induction m with
  | nil => simp [amSet]
  | cons p rest ih =>
    obtain ⟨k', v'⟩ := p
    by_cases hk : k' = k
    · subst hk; simp [amSet]
    · have hk' : ¬ k = k' := fun h => hk h.symm
      by_cases hmem : k ∈ rest.map Prod.fst
      · simp [amSet, hk, ih, hmem, hk']
      · simp [amSet, hk, ih, hmem, hk']

theorem mapWF_amSet (m : List (String × AppData)) (k : String) (v : AppData)
    (hwf : mapWF m) (hv : v.appName = k) : mapWF (amSet m k v) := by
  constructor
  · rw [keys_amSet]
    by_cases hmem : k ∈ m.map Prod.fst
    · simpa [hmem] using hwf.1
    · simp only [hmem, if_false]
      rw [List.nodup_append]
      exact ⟨hwf.1, List.nodup_singleton k, by simpa using hmem⟩
  · intro p hp
    induction m with
    | nil => simp [amSet] at hp; simp [hp, hv]
    | cons q rest ih =>
      obtain ⟨k', v'⟩ := q
      by_cases hk : k' = k
      · subst hk
        simp only [amSet, if_pos rfl] at hp
        rcases List.mem_cons.mp hp with h1 | h1
        · simp [h1, hv]
        · exact hwf.2 p (List.mem_cons_of_mem _ h1)
      · simp only [amSet, if_neg hk] at hp
        rcases List.mem_cons.mp hp with h1 | h1
        · exact hwf.2 p (h1 ▸ List.mem_cons_self _ _)
        · refine ih ⟨?_, ?_⟩ h1
          · exact (List.nodup_cons.mp (by simpa using hwf.1)).2
          · intro q hq; exact hwf.2 q (List.mem_cons_of_mem _ hq)

theorem mapWF_step (m : List (String × AppData)) (e : AppData)
    (hwf : mapWF m) : mapWF (getAllAppsStep m e) := by
  unfold getAllAppsStep
  cases amGet m e.appName with
  | none => exact mapWF_amSet m _ e hwf rfl
  | some cur =>
    by_cases hlt : cur.timestamp < e.timestamp
    · simpa [hlt] using mapWF_amSet m _ e hwf rfl
    · simpa [hlt] using hwf

theorem mapWF_foldl (l : List AppData) (m : List (String × AppData))
    (hwf : mapWF m) : mapWF (l.foldl getAllAppsStep m) := by
  induction l generalizing m with
  | nil => exact hwf
  | cons e rest ih => exact ih _ (mapWF_step m e hwf)

theorem mapWF_getAllAppsMap (log : Log) : mapWF (getAllAppsMap log) :=
  mapWF_foldl _ _ ⟨List.nodup_nil, by simp⟩

theorem values_filter_of_not_mem (m : List (String × AppData)) (name : String)
    (hkeys : ∀ p ∈ m, p.2.appName = p.1) (hmem : name ∉ m.map Prod.fst) :
    (m.map Prod.snd).filter (fun a => a.appName = name) = [] := by
  rw [List.filter_eq_nil_iff]
  intro a ha
  obtain ⟨p, hp, hpa⟩ := List.mem_map.mp ha
  have := hkeys p hp
  simp only [decide_eq_true_eq]
  intro hcontra
  exact hmem (List.mem_map.mpr ⟨p, hp, by rw [← this, hpa, hcontra]⟩)

theorem values_filter_eq_amGet (m : List (String × AppData)) (name : String)
    (hwf : mapWF m) :
    (m.map Prod.snd).filter (fun a => a.appName = name) =
      match amGet m name with
      | none => []
      | some v => [v] := by
  induction m with
  | nil => simp [amGet]
  | cons p rest ih =>
    obtain ⟨k, v⟩ := p
    have hv : v.appName = k := hwf.2 (k, v) (List.mem_cons_self _ _)
    have hnodup1 : k ∉ rest.map Prod.fst := by
      have h1 := hwf.1
      simp only [List.map_cons, List.nodup_cons] at h1
      exact h1.1
    have hnodup2 : (rest.map Prod.fst).Nodup := by
      have h1 := hwf.1
      simp only [List.map_cons, List.nodup_cons] at h1
      exact h1.2
    have hwf' : mapWF rest :=
      ⟨hnodup2, fun q hq => hwf.2 q (List.mem_cons_of_mem _ hq)⟩
    by_cases hk : k = name
    · subst hk
      have hrest : (rest.map Prod.snd).filter (fun a => a.appName = k) = [] :=
        values_filter_of_not_mem rest k hwf'.2 hnodup1
      simp [amGet, List.filter_cons, hv, hrest]
    · have : ¬ v.appName = name := fun h => hk (hv ▸ h)
      simp [amGet, List.filter_cons, this, hk, ih hwf']

/-! ### Example log from the spec (§8): two "blog" events -/

def exEvent1 : AppData :=
  { appName := "blog", cid := "cid1", version := "v1", timestamp := 10,
    deployed := true, domain := none, status := "running" }

def exEvent2 : AppData :=
  { appName := "blog", cid := "cid2", version := "v2", timestamp := 20,
    deployed := true, domain := none, status := "running" }

def exLog : Log := [exEvent1, exEvent2]

/-- **C1**: for every finite event sequence and every appName occurring in
it, the materializer (`getAllApps`) maps the appName to exactly one event
of its group — the one selected by the spec rule (greatest timestamp, ties
broken by store order, last-appended wins) — and the resulting state is
that whole event (so `cid`, `version`, `deployed` and `status` all come
from that single event, never mixed across events). -/
theorem claim1_getAllApps_last_writer_wins (log : Log) (name : String)
    (h : ∃ e ∈ log, e.appName = name) :
    ∃ sel, selectLatestSpec log name = some sel ∧
      amGet (getAllAppsMap log) name = some sel ∧
      (getAllApps log).filter (fun a => a.appName = name) = [sel] ∧
      sel ∈ log ∧ sel.appName = name ∧
      ∀ e ∈ log, e.appName = name → e.timestamp ≤ sel.timestamp := by
  obtain ⟨sel, hsel⟩ := selectLatestSpec_isSome log name h
  obtain ⟨hmem, hname, hmax⟩ := selectLatestSpec_spec log name sel hsel
  refine ⟨sel, hsel, ?_, ?_, hmem, hname, hmax⟩
  · rw [amGet_getAllAppsMap]; exact hsel
  · unfold getAllApps
    rw [values_filter_eq_amGet _ _ (mapWF_getAllAppsMap log),
      amGet_getAllAppsMap, hsel]

/-! ### Version listing (`getAppVersions`, src/services/network.ts 640-699) -/

/-- Shape of one entry returned by `getAppVersions`. -/
structure VersionEntry where
  tag : String
  cid : String
  timestamp : Nat
  deployed : Bool
deriving Repr, DecidableEq

/-- The per-entry projection in `getAppVersions` (lines 660-668). -/
def toVersionEntry (e : AppData) : VersionEntry :=
  { tag := e.version, cid := e.cid, timestamp := e.timestamp, deployed := e.deployed }

/-- Insert into a descending-by-timestamp list, before the first entry
whose timestamp it reaches (so earlier elements beat equal later ones). -/
def insertDesc (x : VersionEntry) : List VersionEntry → List VersionEntry
  | [] => [x]
  | y :: ys => if y.timestamp ≤ x.timestamp then x :: y :: ys else y :: insertDesc x ys

/-- The stable sort by timestamp descending performed by
`appEntries.sort((a, b) => new Date(b.timestamp) - new Date(a.timestamp))`
(lines 671-673); ECMAScript `Array.prototype.sort` is stable, and a stable
sort for a total preorder is unique, so insertion sort models it exactly. -/
def sortDesc : List VersionEntry → List VersionEntry
  | [] => []
  | x :: xs => insertDesc x (sortDesc xs)

/-- `versions.findIndex(v => v.deployed)` (line 676). -/
def findDeployedIdx : List VersionEntry → Option Nat
  | [] => none
  | v :: vs => if v.deployed then some 0 else (findDeployedIdx vs).map (· + 1)

def clearDeployed (v : VersionEntry) : VersionEntry := { v with deployed := false }

/-- Set every `deployed` flag to false except the one at the given index
(lines 678-681: `forEach(v => v.deployed = false)` then
`versions[latestDeployedIndex].deployed = true`). -/
def markOnly : Nat → List VersionEntry → List VersionEntry
  | _, [] => []
  | 0, v :: vs => { v with deployed := true } :: vs.map clearDeployed
  | i + 1, v :: vs => clearDeployed v :: markOnly i vs

/-- Lines 675-682: mark only the first deployed entry of the sorted list
as deployed, if any entry is deployed. -/
def forceLatestDeployed (vs : List VersionEntry) : List VersionEntry :=
  match findDeployedIdx vs with
  | none => vs
  | some i => markOnly i vs

/-- `getAppVersions` (src/services/network.ts, lines 640-699): filter the
log to this app, project, sort by timestamp descending, then force at most
one `deployed` flag. -/
def getAppVersions (log : Log) (appName : String) : List VersionEntry :=
  forceLatestDeployed
    (sortDesc ((log.filter (fun e => e.appName = appName)).map toVersionEntry))

/-- Everything of a version entry except its (possibly rewritten)
`deployed` flag. -/
def stripDeployedFlag (v : VersionEntry) : String × String × Nat :=
  (v.tag, v.cid, v.timestamp)

/-- Descending-by-timestamp ordering relation on version entries. -/
def tsDesc (a b : VersionEntry) : Prop := b.timestamp ≤ a.timestamp

/-! #### Sorting lemmas -/

theorem insertDesc_perm (x : VersionEntry) (l : List VersionEntry) :
    List.Perm (insertDesc x l) (x :: l) := by
  induction l with
  | nil => rfl
  | cons y ys ih =>
    by_cases h : y.timestamp ≤ x.timestamp
    · simp [insertDesc, h]
    · have h1 : insertDesc x (y :: ys) = y :: insertDesc x ys := by
        simp [insertDesc, h]
      rw [h1]
      exact List.Perm.trans (List.Perm.cons y ih) (List.Perm.swap x y ys)

theorem sortDesc_perm (l : List VersionEntry) : List.Perm (sortDesc l) l := by
  induction l with
  | nil => rfl
  | cons x xs ih =>
    exact List.Perm.trans (insertDesc_perm x (sortDesc xs)) (List.Perm.cons x ih)

theorem mem_insertDesc {x y : VersionEntry} {l : List VersionEntry}
    (h : y ∈ insertDesc x l) : y = x ∨ y ∈ l := by
  have := (insertDesc_perm x l).mem_iff.mp h
  simpa using this

theorem insertDesc_pairwise (x : VersionEntry) (l : List VersionEntry)
    (h : List.Pairwise tsDesc l) : List.Pairwise tsDesc (insertDesc x l) := by
  induction l with
  | nil => simp [insertDesc, List.pairwise_singleton]
  | cons y ys ih =>
    obtain ⟨hy, hys⟩ := List.pairwise_cons.mp h
    by_cases hle : y.timestamp ≤ x.timestamp
    · rw [insertDesc, if_pos hle]
      refine List.pairwise_cons.mpr ⟨?_, h⟩
      intro z hz
      rcases List.mem_cons.mp hz with h1 | h1
      · exact h1 ▸ hle
      · exact le_trans (hy z h1) hle
    · rw [insertDesc, if_neg hle]
      refine List.pairwise_cons.mpr ⟨?_, ih hys⟩
      intro z hz
      rcases mem_insertDesc hz with h1 | h1
      · subst h1; unfold tsDesc; omega
      · exact hy z h1

theorem sortDesc_pairwise (l : List VersionEntry) :
    List.Pairwise tsDesc (sortDesc l) := by
  induction l with
  | nil => exact List.Pairwise.nil
  | cons x xs ih => exact insertDesc_pairwise x (sortDesc xs) ih

/-! #### findIndex / mark lemmas -/

theorem findDeployedIdx_none {l : List VersionEntry}
    (h : findDeployedIdx l = none) : ∀ v ∈ l, v.deployed = false := by
  induction l with
  | nil => simp
  | cons v vs ih =>
    by_cases hv : v.deployed
    · simp [findDeployedIdx, hv] at h
    · intro u hu
      rcases List.mem_cons.mp hu with h1 | h1
      · simp [h1, hv]
      · refine ih ?_ u h1
        simp only [findDeployedIdx, hv, if_false, Bool.false_eq_true] at h
        exact Option.map_eq_none.mp h

theorem findDeployedIdx_some {l : List VersionEntry} {i : Nat}
    (h : findDeployedIdx l = some i) :
    ∃ pre v post, l = pre ++ v :: post ∧ pre.length = i ∧
      (∀ u ∈ pre, u.deployed = false) ∧ v.deployed = true := by
  induction l generalizing i with
  | nil => simp [findDeployedIdx] at h
  | cons v vs ih =>
    by_cases hv : v.deployed
    · simp only [findDeployedIdx, hv, if_true] at h
      exact ⟨[], v, vs, by simp, by simpa using h, by simp, hv⟩
    · simp only [findDeployedIdx, hv, Bool.false_eq_true, if_false] at h
      obtain ⟨j, hj, hji⟩ := Option.map_eq_some'.mp h
      obtain ⟨pre, w, post, hl, hlen, hpre, hw⟩ := ih hj
      refine ⟨v :: pre, w, post, by simp [hl], by simp [hlen, hji], ?_, hw⟩
      intro u hu
      rcases List.mem_cons.mp hu with h1 | h1
      · simp [h1, hv]
      · exact hpre u h1

theorem markOnly_append (pre : List VersionEntry) (v : VersionEntry)
    (post : List VersionEntry) :
    markOnly pre.length (pre ++ v :: post) =
      pre.map clearDeployed ++ ({ v with deployed := true } :: post.map clearDeployed) := by
  induction pre with
  | nil => simp [markOnly]
  | cons u us ih => simp [markOnly, ih]

theorem markOnly_map_strip (i : Nat) (l : List VersionEntry) :
    (markOnly i l).map stripDeployedFlag = l.map stripDeployedFlag := by
  induction l generalizing i with
  | nil => simp [markOnly]
  | cons v vs ih =>
    cases i with
    | zero =>
      simp only [markOnly, List.map_cons, List.map_map]
      refine congrArg₂ _ rfl ?_
      apply List.map_congr_left
      intro a _
      rfl
    | succ j => simp [markOnly, ih, stripDeployedFlag, clearDeployed]

theorem markOnly_map_timestamp (i : Nat) (l : List VersionEntry) :
    (markOnly i l).map VersionEntry.timestamp = l.map VersionEntry.timestamp := by
  induction l generalizing i with
  | nil => simp [markOnly]
  | cons v vs ih =>
    cases i with
    | zero =>
      simp only [markOnly, List.map_cons, List.map_map]
      refine congrArg₂ _ rfl ?_
      apply List.map_congr_left
      intro a _
      rfl
    | succ j => simp [markOnly, ih, clearDeployed]

/-- The `appEntries` intermediate of `getAppVersions` (lines 658-668): one
entry per historical event of the app, in store order. -/
def appEntries (log : Log) (name : String) : List VersionEntry :=
  (log.filter (fun e => e.appName = name)).map toVersionEntry

theorem getAppVersions_def (log : Log) (name : String) :
    getAppVersions log name = forceLatestDeployed (sortDesc (appEntries log name)) := rfl

theorem pairwise_tsDesc_iff (l : List VersionEntry) :
    List.Pairwise tsDesc l ↔
      (l.map VersionEntry.timestamp).Pairwise (fun a b => b ≤ a) := by
  rw [List.pairwise_map]
  rfl

theorem countP_map_clearDeployed (l : List VersionEntry) :
    (l.map clearDeployed).countP (fun v => v.deployed) = 0 := by
  rw [List.countP_eq_zero]
  intro a ha
  obtain ⟨b, _, rfl⟩ := List.mem_map.mp ha
  simp [clearDeployed]

/-- **C2**: `getAppVersions` returns one entry per historical event of the
app (same multiset once the rewritten `deployed` flags are stripped),
sorted by timestamp descending; when at least one historical event claims
`deployed = true`, exactly one returned entry carries `deployed = true`,
it stems from an originally-deployed event and is chronologically latest
among the originally-deployed ones, while every other entry is forced to
`deployed = false`.  In particular, on the spec's two-event "blog" log the
result is `[v2 (deployed), v1 (not deployed)]`. -/
theorem claim2_getAppVersions_history
    (log : Log) (name : String) :
    ((getAppVersions log name).map stripDeployedFlag).Perm
        ((appEntries log name).map stripDeployedFlag)
    ∧ List.Pairwise tsDesc (getAppVersions log name)
    ∧ ((∃ v ∈ appEntries log name, v.deployed = true) →
        (getAppVersions log name).countP (fun v => v.deployed) = 1
        ∧ ∃ w ∈ getAppVersions log name, w.deployed = true
            ∧ (∃ v ∈ appEntries log name,
                  v.deployed = true ∧ stripDeployedFlag v = stripDeployedFlag w)
            ∧ ∀ v ∈ appEntries log name,
                v.deployed = true → v.timestamp ≤ w.timestamp)
    ∧ getAppVersions exLog "blog" =
        [{ tag := "v2", cid := "cid2", timestamp := 20, deployed := true },
         { tag := "v1", cid := "cid1", timestamp := 10, deployed := false }] := by
  have hperm := sortDesc_perm (appEntries log name)
  have hpair := sortDesc_pairwise (appEntries log name)
  cases hidx : findDeployedIdx (sortDesc (appEntries log name)) with
  | none =>
    have hres : getAppVersions log name = sortDesc (appEntries log name) := by
      rw [getAppVersions_def]; unfold forceLatestDeployed; rw [hidx]
    refine ⟨?_, ?_, ?_, by decide⟩
    · rw [hres]; exact hperm.map stripDeployedFlag
    · rw [hres]; exact hpair
    · rintro ⟨v, hv, hdep⟩
      have hv' : v ∈ sortDesc (appEntries log name) := hperm.mem_iff.mpr hv
      have := findDeployedIdx_none hidx v hv'
      rw [hdep] at this
      exact absurd this (by simp)
  | some i =>
    obtain ⟨pre, w0, post, hdecomp, hlen, hpre, hw0⟩ := findDeployedIdx_some hidx
    have hres : getAppVersions log name =
        pre.map clearDeployed ++
          ({ w0 with deployed := true } :: post.map clearDeployed) := by
      rw [getAppVersions_def]
      unfold forceLatestDeployed
      rw [hidx]
      show markOnly i (sortDesc (appEntries log name)) = _
      rw [hdecomp, ← hlen, markOnly_append]
    have hmapstrip : (getAppVersions log name).map stripDeployedFlag =
        (sortDesc (appEntries log name)).map stripDeployedFlag := by
      rw [getAppVersions_def]
      unfold forceLatestDeployed
      rw [hidx, markOnly_map_strip]
    have hmapts : (getAppVersions log name).map VersionEntry.timestamp =
        (sortDesc (appEntries log name)).map VersionEntry.timestamp := by
      rw [getAppVersions_def]
      unfold forceLatestDeployed
      rw [hidx, markOnly_map_timestamp]
    refine ⟨?_, ?_, ?_, by decide⟩
    · rw [hmapstrip]; exact hperm.map stripDeployedFlag
    · rw [pairwise_tsDesc_iff, hmapts, ← pairwise_tsDesc_iff]; exact hpair
    · intro _
      constructor
      · rw [hres, List.countP_append, List.countP_cons, countP_map_clearDeployed,
          countP_map_clearDeployed]
        simp
      · refine ⟨{ w0 with deployed := true }, ?_, rfl, ?_, ?_⟩
        · rw [hres]
          exact List.mem_append_right _ (List.mem_cons_self _ _)
        · refine ⟨w0, ?_, hw0, rfl⟩
          exact hperm.mem_iff.mp (hdecomp ▸ List.mem_append_right _ (List.mem_cons_self _ _))
        · intro v hv hdep
          have hv' : v ∈ pre ++ w0 :: post := hdecomp ▸ hperm.mem_iff.mpr hv
          rcases List.mem_append.mp hv' with h1 | h1
          · have := hpre v h1
            rw [hdep] at this
            exact absurd this (by simp)
          · rcases List.mem_cons.mp h1 with h2 | h2
            · simp [h2]
            · have hp := hdecomp ▸ hpair
              have hcons := (List.pairwise_append.mp hp).2.1
              exact List.pairwise_cons.mp hcons |>.1 v h2

/-- Witness for C2's conditional part at the spec's concrete two-event
"blog" log. -/
theorem claim2_witness :
    (getAppVersions exLog "blog").countP (fun v => v.deployed) = 1
    ∧ ∃ w ∈ getAppVersions exLog "blog", w.deployed = true
        ∧ (∃ v ∈ appEntries exLog "blog",
              v.deployed = true ∧ stripDeployedFlag v = stripDeployedFlag w)
        ∧ ∀ v ∈ appEntries exLog "blog",
            v.deployed = true → v.timestamp ≤ w.timestamp :=
  (claim2_getAppVersions_history exLog "blog").2.2.1
    ⟨toVersionEntry exEvent1, by decide, by decide⟩

/-- **C7**: at any single materialization, `getAppVersions` never reports
two entries with `deployed = true` for the same application. -/
theorem claim7_at_most_one_deployed (log : Log) (name : String) :
    (getAppVersions log name).countP (fun v => v.deployed) ≤ 1 := by
  cases hidx : findDeployedIdx (sortDesc (appEntries log name)) with
  | none =>
    have hres : getAppVersions log name = sortDesc (appEntries log name) := by
      rw [getAppVersions_def]; unfold forceLatestDeployed; rw [hidx]
    rw [hres, List.countP_eq_zero.mpr]
    · omega
    · intro v hv
      have := findDeployedIdx_none hidx v hv
      simp [this]
  | some i =>
    obtain ⟨pre, w0, post, hdecomp, hlen, hpre, hw0⟩ := findDeployedIdx_some hidx
    have hres : getAppVersions log name =
        pre.map clearDeployed ++
          ({ w0 with deployed := true } :: post.map clearDeployed) := by
      rw [getAppVersions_def]
      unfold forceLatestDeployed
      rw [hidx]
      show markOnly i (sortDesc (appEntries log name)) = _
      rw [hdecomp, ← hlen, markOnly_append]
    rw [hres, List.countP_append, List.countP_cons, countP_map_clearDeployed,
      countP_map_clearDeployed]
    simp

/-- Witness for C1 at the spec's concrete two-event "blog" log. -/
theorem claim1_witness :
    ∃ sel, selectLatestSpec exLog "blog" = some sel ∧
      amGet (getAllAppsMap exLog) "blog" = some sel ∧
      (getAllApps exLog).filter (fun a => a.appName = "blog") = [sel] ∧
      sel ∈ exLog ∧ sel.appName = "blog" ∧
      ∀ e ∈ exLog, e.appName = "blog" → e.timestamp ≤ sel.timestamp :=
  claim1_getAllApps_last_writer_wins exLog "blog" ⟨exEvent2, by decide, by decide⟩

/-! ### Commands, pub/sub messages and effect traces

State-changing commands perform two kinds of effects: publishing a JSON
message on a libp2p pubsub topic, and appending an event to the
`application_data` feed (`db.add` inside `storeAppData`).  We record both
in an effect trace, in execution order.  A publish may throw (the
transport can fail); a per-topic oracle `pubOk : String → Bool` decides
whether the `publish` call on a topic succeeds.  `getLibp2p()` is modelled
as always returning an instance (the commands bail out early otherwise,
performing no effect at all). -/

/-- A pubsub JSON message; absent JSON keys are `none`. -/
structure PubMessage where
  topic : String
  type : String
  action : Option String
  appName : Option String
  cid : Option String
  version : Option String
  domain : Option String
  isRollback : Option Bool
  force : Option Bool
  appData : Option AppData
  timestamp : Nat
deriving Repr, DecidableEq

/-- A message with only `type` and `timestamp` set; commands fill in the
fields their JSON literal carries. -/
def baseMsg (topic ty : String) (now : Nat) : PubMessage :=
  { topic := topic, type := ty, action := none, appName := none, cid := none,
    version := none, domain := none, isRollback := none, force := none,
    appData := none, timestamp := now }

inductive Effect where
  | publish : PubMessage → Effect
  | dbAdd : AppData → Effect
deriving Repr, DecidableEq

def isDbAddEffect : Effect → Bool
  | Effect.dbAdd _ => true
  | Effect.publish _ => false

/-- Claim-side (spec §2 control flow): the broadcast never precedes the
append, i.e. no publish in the trace is followed by a later `db.add`. -/
def noBroadcastBeforeAppend : List Effect → Bool
  | [] => true
  | Effect.dbAdd _ :: rest => noBroadcastBeforeAppend rest
  | Effect.publish _ :: rest => !rest.any isDbAddEffect && noBroadcastBeforeAppend rest

/-- The `app-data-update` message broadcast by `storeAppData` (lines
356-360). -/
def appDataMessage (ev : AppData) (now : Nat) : PubMessage :=
  { baseMsg "debros-app-data" "app-data-update" now with appData := some ev }

/-- `storeAppData` (src/services/network.ts, lines 344-387): `db.add` the
event, then publish an `app-data-update` message on `debros-app-data`.
The append is durable even when the subsequent publish throws; a publish
failure makes `storeAppData` itself throw (its catch block rethrows). -/
def storeAppData (pubOk : String → Bool) (now : Nat) (log : Log) (ev : AppData) :
    Except String Unit × Log × List Effect :=
  let log' := log ++ [ev]
  if pubOk "debros-app-data" then
    (Except.ok (), log', [Effect.dbAdd ev, Effect.publish (appDataMessage ev now)])
  else
    (Except.error "failed to publish to debros-app-data", log', [Effect.dbAdd ev])

/-- Result record `{success, message?, version?, cid?}` returned by the
commands. -/
structure CmdResult where
  success : Bool
  message : Option String
  version : Option String
  cid : Option String
deriving Repr, DecidableEq

def cmdOk : CmdResult :=
  { success := true, message := none, version := none, cid := none }

def cmdFail (msg : String) : CmdResult :=
  { success := false, message := some msg, version := none, cid := none }

/-- Domain normalization in `announceDeployment` (lines 471-479): default
to `appName.debros.sol`, and force the `.debros.sol` suffix otherwise. -/
def normalizeDomain (appName domain : String) : String :=
  let appDomain := if domain = "" then appName ++ "." ++ defaultDomain else domain
  if appDomain.endsWith ("." ++ defaultDomain) then appDomain
  else ((appDomain.splitOn ".").headD "") ++ "." ++ defaultDomain

/-- The deployment announcement message of `announceDeployment` (lines
482-489). -/
def deploymentMessage (cid appName version dom : String) (now : Nat) : PubMessage :=
  { baseMsg "debros-deploy" "deployment" now with
      cid := some cid, appName := some appName, version := some version,
      domain := some dom }

/-- The event appended for a (re)deployment: `deployed=true`,
`status='running'`. -/
def deployEvent (appName cid version dom : String) (now : Nat) : AppData :=
  { appName := appName, cid := cid, version := version, timestamp := now,
    deployed := true, domain := some dom, status := "running" }

/-- `announceDeployment` (src/services/network.ts, lines 451-523): publish
the deployment message on `debros-deploy`, then `storeAppData`.  Errors
(either publish, including the one inside `storeAppData`) are rethrown. -/
def announceDeployment (pubOk : String → Bool) (now : Nat) (log : Log)
    (cid appName version domain : String) :
    Except String Bool × Log × List Effect :=
  let appDomain := normalizeDomain appName domain
  let msg := deploymentMessage cid appName version appDomain now
  if pubOk "debros-deploy" then
    match storeAppData pubOk now log (deployEvent appName cid version appDomain now) with
    | (Except.ok _, log', tr) => (Except.ok true, log', Effect.publish msg :: tr)
    | (Except.error e, log', tr) => (Except.error e, log', Effect.publish msg :: tr)
  else
    (Except.error "failed to publish to debros-deploy", log, [])

/-- The rollback announcement message (lines 772-780): the deployment
message plus `isRollback: true`. -/
def rollbackMessage (appName : String) (t : VersionEntry) (dom : String)
    (now : Nat) : PubMessage :=
  { deploymentMessage t.cid appName t.tag dom now with isRollback := some true }

/-- `domain || appName.defaultDomain` (line 769). -/
def rollbackDomain (appName : String) (domain : Option String) : String :=
  match domain with
  | some d => d
  | none => appName ++ "." ++ defaultDomain

/-- `rollbackToVersion` (src/services/network.ts, lines 704-821).
With a `versionTag`: exact match against `getAppVersions`.  Without: the
newest (timestamp-descending head after re-sorting) entry that is not
deployed.  On success: broadcast the rollback deployment message, then
append `deployed=true, status='running'` with the target's cid/version.
All throws are caught and turned into `{success:false, message}`. -/
def rollbackToVersion (pubOk : String → Bool) (now : Nat) (log : Log)
    (appName : String) (versionTag : Option String) (domain : Option String) :
    CmdResult × Log × List Effect :=
  let versions := getAppVersions log appName
  if versions.length = 0 then
    (cmdFail ("No versions found for " ++ appName), log, [])
  else
    let target? :=
      match versionTag with
      | some tag => versions.find? (fun v => v.tag = tag)
      | none => (sortDesc (versions.filter (fun v => !v.deployed))).head?
    match target?, versionTag with
    | none, some tag => (cmdFail ("Version " ++ tag ++ " not found"), log, [])
    | none, none => (cmdFail "No previous versions found to rollback to", log, [])
    | some target, _ =>
      let appDomain := rollbackDomain appName domain
      let msg := rollbackMessage appName target appDomain now
      if pubOk "debros-deploy" then
        match storeAppData pubOk now log
            (deployEvent appName target.cid target.tag appDomain now) with
        | (Except.ok _, log', tr) =>
          ({ success := true, message := none, version := some target.tag,
             cid := some target.cid }, log', Effect.publish msg :: tr)
        | (Except.error e, log', tr) => (cmdFail e, log', Effect.publish msg :: tr)
      else (cmdFail "failed to publish to debros-deploy", log, [])

/-- The start action message (lines 935-942). -/
def startMessage (appName version cid : String) (now : Nat) : PubMessage :=
  { baseMsg "debros-app-actions" "application-action" now with
      action := some "start", appName := some appName, version := some version,
      cid := some cid }

/-- `appData?.domain || appName.defaultDomain` (line 953); JS `||` also
rejects the empty string. -/
def startDomain (appName : String) (found : Option AppData) : String :=
  match found.bind AppData.domain with
  | some d => if d = "" then appName ++ "." ++ defaultDomain else d
  | none => appName ++ "." ++ defaultDomain

/-- `startApplication` (src/services/network.ts, lines 898-986): resolve
`versionTag` in `getAppVersions`; broadcast a start action; then append
`deployed=true, status='running'` with the resolved cid. -/
def startApplication (pubOk : String → Bool) (now : Nat) (log : Log)
    (appName versionTag : String) :
    CmdResult × Log × List Effect :=
  let versions := getAppVersions log appName
  if versions.length = 0 then
    (cmdFail ("No versions found for " ++ appName), log, [])
  else
    match versions.find? (fun v => v.tag = versionTag) with
    | none => (cmdFail ("Version " ++ versionTag ++ " not found"), log, [])
    | some target =>
      let msg := startMessage appName versionTag target.cid now
      if pubOk "debros-app-actions" then
        let found := (getAllApps log).find? (fun a => a.appName = appName)
        let appDomain := startDomain appName found
        match storeAppData pubOk now log
            (deployEvent appName target.cid versionTag appDomain now) with
        | (Except.ok _, log', tr) => (cmdOk, log', Effect.publish msg :: tr)
        | (Except.error e, log', tr) => (cmdFail e, log', Effect.publish msg :: tr)
      else (cmdFail "failed to publish to debros-app-actions", log, [])

/-- The stop action message (lines 846-852). -/
def stopMessage (appName : String) (force : Bool) (now : Nat) : PubMessage :=
  { baseMsg "debros-app-actions" "application-action" now with
      action := some "stop", appName := some appName, force := some force }

/-- `stopApplication` (src/services/network.ts, lines 826-893): broadcast
a stop action; then, if the app has a materialized state, append that
state cloned with `status='stopped'` and a fresh timestamp. -/
def stopApplication (pubOk : String → Bool) (now : Nat) (log : Log)
    (appName : String) (force : Bool) :
    CmdResult × Log × List Effect :=
  let msg := stopMessage appName force now
  if pubOk "debros-app-actions" then
    match (getAllApps log).find? (fun a => a.appName = appName) with
    | some appData =>
      match storeAppData pubOk now log
          { appData with status := "stopped", timestamp := now } with
      | (Except.ok _, log', tr) => (cmdOk, log', Effect.publish msg :: tr)
      | (Except.error e, log', tr) => (cmdFail e, log', Effect.publish msg :: tr)
    | none => (cmdOk, log, [Effect.publish msg])
  else (cmdFail "failed to publish to debros-app-actions", log, [])

/-- The delete action message (lines 1011-1017). -/
def deleteMessage (appName : String) (force : Bool) (now : Nat) : PubMessage :=
  { baseMsg "debros-app-actions" "application-action" now with
      action := some "delete", appName := some appName, force := some force }

/-- `deleteApplication` (src/services/network.ts, lines 991-1055):
broadcast a delete action and log intent; no append, no removal. -/
def deleteApplication (pubOk : String → Bool) (now : Nat) (log : Log)
    (appName : String) (force : Bool) :
    CmdResult × Log × List Effect :=
  let msg := deleteMessage appName force now
  if pubOk "debros-app-actions" then
    (cmdOk, log, [Effect.publish msg])
  else (cmdFail "failed to publish to debros-app-actions", log, [])

/-- `checkAppNameAvailability` (src/services/network.ts, lines 309-339):
the name is available iff no stored entry carries it. -/
def checkAppNameAvailability (log : Log) (appName : String) : Bool :=
  ((log.map (fun e => e.appName)).filter (fun name => name = appName)).length = 0

/-- The JSON keys (with stringified values) of the object handed to
`db.add`: exactly the fields of the `AppData` literal built by the
command; the optional `domain` key is present only when set. -/
def eventFields (e : AppData) : List (String × String) :=
  [("appName", e.appName), ("cid", e.cid), ("version", e.version),
   ("timestamp", toString e.timestamp), ("deployed", toString e.deployed),
   ("status", e.status)] ++
    (match e.domain with
     | some d => [("domain", d)]
     | none => [])

/-! ### Claims about the commands -/

/-- Counterexample to **C8** as stated: deleting "blog" from the example
log leaves the log exactly unchanged and performs no `db.add` — contrary
to the claim, the deletion is NOT represented as a new event appended to
the log. -/
theorem claim8_counterexample :
    (deleteApplication (fun _ => true) 100 exLog "blog" false).2.1 = exLog
    ∧ ((deleteApplication (fun _ => true) 100 exLog "blog" false).2.2.any
        isDbAddEffect) = false := by
  decide

/-- **C8 (amended)**: `deleteApplication` removes, mutates or invalidates
no existing log event — the log is left exactly unchanged, so every prior
event of the application remains — but, contrary to the claim, it appends
no deletion event either: its only effect is the delete broadcast. -/
theorem claim8_delete_leaves_log_unchanged (pubOk : String → Bool) (now : Nat)
    (log : Log) (appName : String) (force : Bool) :
    (deleteApplication pubOk now log appName force).2.1 = log
    ∧ ((deleteApplication pubOk now log appName force).2.2.any
        isDbAddEffect) = false
    ∧ ∀ e ∈ log, e ∈ (deleteApplication pubOk now log appName force).2.1 := by
  unfold deleteApplication
  by_cases h : pubOk "debros-app-actions" <;> simp [h, isDbAddEffect]

/-- **C6**: a versionTag matching no entry of `getAppVersions` makes both
`rollbackToVersion` and `startApplication` return a `{success:false}`
version-not-found result and append nothing — the log and the effect trace
are untouched.  (When the app has no versions at all the failure message
is "No versions found for ...", otherwise "Version ... not found".) -/
theorem claim6_version_not_found (pubOk : String → Bool) (now : Nat) (log : Log)
    (appName tag : String) (domain : Option String)
    (h : ∀ v ∈ getAppVersions log appName, v.tag ≠ tag) :
    (rollbackToVersion pubOk now log appName (some tag) domain).1.success = false
    ∧ (rollbackToVersion pubOk now log appName (some tag) domain).2.1 = log
    ∧ (rollbackToVersion pubOk now log appName (some tag) domain).2.2 = []
    ∧ (startApplication pubOk now log appName tag).1.success = false
    ∧ (startApplication pubOk now log appName tag).2.1 = log
    ∧ (startApplication pubOk now log appName tag).2.2 = []
    ∧ (rollbackToVersion pubOk now log appName (some tag) domain).1.message =
        some (if (getAppVersions log appName).length = 0
          then "No versions found for " ++ appName
          else "Version " ++ tag ++ " not found")
    ∧ (startApplication pubOk now log appName tag).1.message =
        some (if (getAppVersions log appName).length = 0
          then "No versions found for " ++ appName
          else "Version " ++ tag ++ " not found") := by
  have hfind : (getAppVersions log appName).find? (fun v => v.tag = tag) = none :=
    List.find?_eq_none.mpr (fun v hv => by simpa using h v hv)
  unfold rollbackToVersion startApplication
  by_cases hlen : (getAppVersions log appName).length = 0 <;>
    simp [hlen, hfind, cmdFail]

/-- Witness for C6: the spec's example `rollback("blog", "v9")` (and
`start("blog", "v9")`) on the two-event "blog" log. -/
theorem claim6_witness :
    (rollbackToVersion (fun _ => true) 100 exLog "blog" (some "v9") none).1.success = false
    ∧ (rollbackToVersion (fun _ => true) 100 exLog "blog" (some "v9") none).2.1 = exLog
    ∧ (rollbackToVersion (fun _ => true) 100 exLog "blog" (some "v9") none).2.2 = []
    ∧ (startApplication (fun _ => true) 100 exLog "blog" "v9").1.success = false
    ∧ (startApplication (fun _ => true) 100 exLog "blog" "v9").2.1 = exLog
    ∧ (startApplication (fun _ => true) 100 exLog "blog" "v9").2.2 = []
    ∧ (rollbackToVersion (fun _ => true) 100 exLog "blog" (some "v9") none).1.message =
        some (if (getAppVersions exLog "blog").length = 0
          then "No versions found for " ++ "blog"
          else "Version " ++ "v9" ++ " not found")
    ∧ (startApplication (fun _ => true) 100 exLog "blog" "v9").1.message =
        some (if (getAppVersions exLog "blog").length = 0
          then "No versions found for " ++ "blog"
          else "Version " ++ "v9" ++ " not found") :=
  claim6_version_not_found (fun _ => true) 100 exLog "blog" "v9" none (by decide)

/-- **C10**: `checkAppNameAvailability` reports a name available iff no
event in the entire log carries it; and since `deleteApplication` appends
and removes nothing, a name that occurs in the log is still reported
unavailable after the application is deleted — an upload of a previously
used name keeps failing forever. -/
theorem claim10_name_unavailable_forever (log : Log) (name : String) :
    (checkAppNameAvailability log name = true ↔ ∀ e ∈ log, e.appName ≠ name)
    ∧ ∀ (pubOk : String → Bool) (now : Nat) (force : Bool),
        (∃ e ∈ log, e.appName = name) →
        checkAppNameAvailability
          (deleteApplication pubOk now log name force).2.1 name = false := by
  constructor
  · unfold checkAppNameAvailability
    simp only [decide_eq_true_eq, List.length_eq_zero, List.filter_eq_nil_iff,
      List.mem_map, decide_eq_true_eq]
    constructor
    · rintro h e he hn
      exact h e.appName ⟨e, he, rfl⟩ hn
    · rintro h a ⟨e, he, rfl⟩ hn
      exact h e he hn
  · rintro pubOk now force ⟨e, he, hn⟩
    have hlog : (deleteApplication pubOk now log name force).2.1 = log := by
      unfold deleteApplication
      by_cases h : pubOk "debros-app-actions" <;> simp [h]
    rw [hlog]
    have hmem : name ∈ (log.map (fun e => e.appName)).filter (fun s => s = name) := by
      rw [List.mem_filter]
      exact ⟨List.mem_map.mpr ⟨e, he, hn⟩, by simp⟩
    have hlen : ¬ ((log.map (fun e => e.appName)).filter
        (fun s => s = name)).length = 0 := by
      intro h0
      rw [List.length_eq_zero] at h0
      rw [h0] at hmem
      simp at hmem
    simp [checkAppNameAvailability, hlen]

/-- Witness for C10: "blog" stays unavailable after deleting it from the
example log. -/
theorem claim10_witness :
    checkAppNameAvailability
      (deleteApplication (fun _ => true) 100 exLog "blog" true).2.1 "blog" = false :=
  (claim10_name_unavailable_forever exLog "blog").2 (fun _ => true) 100 true
    ⟨exEvent1, by decide, by decide⟩

/-- **C9**: `stopApplication` treats `force` as presentation-only: result,
resulting log and append effects are identical for `force = true` and
`force = false` (only the broadcast stop message embeds the flag); and
when the application has a materialized state the appended event is
exactly that state cloned with `status = "stopped"` and the fresh
timestamp. -/
theorem claim9_stop_force_independent (pubOk : String → Bool) (now : Nat)
    (log : Log) (appName : String) :
    ((stopApplication pubOk now log appName true).1 =
        (stopApplication pubOk now log appName false).1
      ∧ (stopApplication pubOk now log appName true).2.1 =
          (stopApplication pubOk now log appName false).2.1
      ∧ (stopApplication pubOk now log appName true).2.2.filter isDbAddEffect =
          (stopApplication pubOk now log appName false).2.2.filter isDbAddEffect)
    ∧ ∀ appData,
        (getAllApps log).find? (fun a => a.appName = appName) = some appData →
        pubOk "debros-app-actions" = true →
        ∀ force, (stopApplication pubOk now log appName force).2.1 =
          log ++ [{ appData with status := "stopped", timestamp := now }] := by
  constructor
  · unfold stopApplication storeAppData
    by_cases hact : pubOk "debros-app-actions"
    · cases hfind : (getAllApps log).find? (fun a => a.appName = appName) with
      | none => simp [hact, hfind, isDbAddEffect]
      | some appData =>
        by_cases hdata : pubOk "debros-app-data" <;>
          simp [hact, hfind, hdata, isDbAddEffect]
    · simp [hact]
  · intro appData hfind hact force
    unfold stopApplication storeAppData
    by_cases hdata : pubOk "debros-app-data" <;> simp [hact, hfind, hdata]

/-- Witness for C9's conditional part: stopping "blog" on the example log
appends the materialized state (the `v2` event) with status "stopped". -/
theorem claim9_witness :
    (stopApplication (fun _ => true) 100 exLog "blog" true).2.1 =
      exLog ++ [{ exEvent2 with status := "stopped", timestamp := 100 }] :=
  (claim9_stop_force_independent (fun _ => true) 100 exLog "blog").2 exEvent2
    (by decide) rfl true

theorem length_ne_zero_of_find?_some {l : List VersionEntry}
    {p : VersionEntry → Bool} {v : VersionEntry} (h : l.find? p = some v) :
    ¬ l.length = 0 := by
  have hmem := List.mem_of_find?_eq_some h
  intro h0
  rw [List.length_eq_zero] at h0
  subst h0
  simp at hmem

/-- Counterexample to **C4** as stated: stopping "blog" on the example log
produces the trace [stop broadcast, db.add, app-data broadcast] — the stop
broadcast on the announcement bus PRECEDES the append to the event log
store. -/
theorem claim4_counterexample :
    (stopApplication (fun _ => true) 100 exLog "blog" false).2.2 =
      [Effect.publish (stopMessage "blog" false 100),
       Effect.dbAdd { exEvent2 with status := "stopped", timestamp := 100 },
       Effect.publish
         (appDataMessage { exEvent2 with status := "stopped", timestamp := 100 } 100)]
    ∧ noBroadcastBeforeAppend
        (stopApplication (fun _ => true) 100 exLog "blog" false).2.2 = false := by
  decide

/-- **C4 (amended)**: in every state-changing command — rollback, start,
stop and announce/deploy — the order is command broadcast first, then the
append, then the `app-data-update` broadcast of the appended event: on the
append path the trace is exactly `[publish commandMessage, dbAdd event,
publish appDataMessage event]`.  So the append precedes the
app-data-update broadcast of the event, but the command's own broadcast
precedes the append. -/
theorem claim4_command_broadcast_precedes_append (pubOk : String → Bool)
    (now : Nat) (log : Log) (appName : String)
    (hdata : pubOk "debros-app-data" = true) :
    (∀ tag target domain,
      (getAppVersions log appName).find? (fun v => v.tag = tag) = some target →
      pubOk "debros-deploy" = true →
      (rollbackToVersion pubOk now log appName (some tag) domain).2.2 =
        [Effect.publish
           (rollbackMessage appName target (rollbackDomain appName domain) now),
         Effect.dbAdd
           (deployEvent appName target.cid target.tag (rollbackDomain appName domain) now),
         Effect.publish
           (appDataMessage
             (deployEvent appName target.cid target.tag (rollbackDomain appName domain) now)
             now)])
    ∧ (∀ tag target,
        (getAppVersions log appName).find? (fun v => v.tag = tag) = some target →
        pubOk "debros-app-actions" = true →
        (startApplication pubOk now log appName tag).2.2 =
          [Effect.publish (startMessage appName tag target.cid now),
           Effect.dbAdd
             (deployEvent appName target.cid tag
               (startDomain appName ((getAllApps log).find? (fun a => a.appName = appName)))
               now),
           Effect.publish
             (appDataMessage
               (deployEvent appName target.cid tag
                 (startDomain appName
                   ((getAllApps log).find? (fun a => a.appName = appName)))
                 now)
               now)])
    ∧ (∀ appData force,
        (getAllApps log).find? (fun a => a.appName = appName) = some appData →
        pubOk "debros-app-actions" = true →
        (stopApplication pubOk now log appName force).2.2 =
          [Effect.publish (stopMessage appName force now),
           Effect.dbAdd { appData with status := "stopped", timestamp := now },
           Effect.publish
             (appDataMessage { appData with status := "stopped", timestamp := now }
               now)])
    ∧ (∀ cid version dom,
        pubOk "debros-deploy" = true →
        (announceDeployment pubOk now log cid appName version dom).2.2 =
          [Effect.publish
             (deploymentMessage cid appName version (normalizeDomain appName dom) now),
           Effect.dbAdd
             (deployEvent appName cid version (normalizeDomain appName dom) now),
           Effect.publish
             (appDataMessage
               (deployEvent appName cid version (normalizeDomain appName dom) now)
               now)]) := by
  refine ⟨?_, ?_, ?_, ?_⟩
  · intro tag target domain hfind hdeploy
    have hlen := length_ne_zero_of_find?_some hfind
    unfold rollbackToVersion storeAppData
    simp [hlen, hfind, hdeploy, hdata]
  · intro tag target hfind hact
    have hlen := length_ne_zero_of_find?_some hfind
    unfold startApplication storeAppData
    simp [hlen, hfind, hact, hdata]
  · intro appData force hfind hact
    unfold stopApplication storeAppData
    simp [hfind, hact, hdata]
  · intro cid version dom hdeploy
    unfold announceDeployment storeAppData
    simp [hdeploy, hdata]

/-- Witness for C4 (amended): the four command traces at the example log
(rollback to "v1", start "v2", stop, announce/deploy). -/
theorem claim4_witness :
    ((rollbackToVersion (fun _ => true) 100 exLog "blog" (some "v1") none).2.2 =
      [Effect.publish
         (rollbackMessage "blog"
           { tag := "v1", cid := "cid1", timestamp := 10, deployed := false }
           (rollbackDomain "blog" none) 100),
       Effect.dbAdd (deployEvent "blog" "cid1" "v1" (rollbackDomain "blog" none) 100),
       Effect.publish
         (appDataMessage (deployEvent "blog" "cid1" "v1" (rollbackDomain "blog" none) 100)
           100)])
    ∧ ((startApplication (fun _ => true) 100 exLog "blog" "v2").2.2 =
        [Effect.publish (startMessage "blog" "v2" "cid2" 100),
         Effect.dbAdd
           (deployEvent "blog" "cid2" "v2"
             (startDomain "blog" ((getAllApps exLog).find? (fun a => a.appName = "blog")))
             100),
         Effect.publish
           (appDataMessage
             (deployEvent "blog" "cid2" "v2"
               (startDomain "blog"
                 ((getAllApps exLog).find? (fun a => a.appName = "blog")))
               100)
             100)])
    ∧ ((stopApplication (fun _ => true) 100 exLog "blog" true).2.2 =
        [Effect.publish (stopMessage "blog" true 100),
         Effect.dbAdd { exEvent2 with status := "stopped", timestamp := 100 },
         Effect.publish
           (appDataMessage { exEvent2 with status := "stopped", timestamp := 100 } 100)])
    ∧ ((announceDeployment (fun _ => true) 100 exLog "c3" "blog" "v3" "").2.2 =
        [Effect.publish
           (deploymentMessage "c3" "blog" "v3" (normalizeDomain "blog" "") 100),
         Effect.dbAdd (deployEvent "blog" "c3" "v3" (normalizeDomain "blog" "") 100),
         Effect.publish
           (appDataMessage (deployEvent "blog" "c3" "v3" (normalizeDomain "blog" "") 100)
             100)]) :=
  ⟨(claim4_command_broadcast_precedes_append (fun _ => true) 100 exLog "blog" rfl).1
      "v1" { tag := "v1", cid := "cid1", timestamp := 10, deployed := false } none
      (by decide) rfl,
   (claim4_command_broadcast_precedes_append (fun _ => true) 100 exLog "blog" rfl).2.1
      "v2" { tag := "v2", cid := "cid2", timestamp := 20, deployed := true }
      (by decide) rfl,
   (claim4_command_broadcast_precedes_append (fun _ => true) 100 exLog "blog" rfl).2.2.1
      exEvent2 true (by decide) rfl,
   (claim4_command_broadcast_precedes_append (fun _ => true) 100 exLog "blog" rfl).2.2.2
      "c3" "v3" "" rfl⟩

/-- A pubsub transport that fails exactly on the `debros-app-data` topic. -/
def failAppDataPub : String → Bool :=
  fun t => if t = "debros-app-data" then false else true

/-- Counterexample to **C5** as stated: rolling back "blog" to "v1" on the
example log with a transport that fails only on `debros-app-data`: the
append succeeds (the rollback event is durably in the resulting log), the
subsequent broadcast fails — and the command reports failure instead of
the success the claim requires. -/
theorem claim5_counterexample :
    (rollbackToVersion failAppDataPub 100 exLog "blog" (some "v1") none).2.1 =
      exLog ++ [deployEvent "blog" "cid1" "v1" "blog.debros.sol" 100]
    ∧ (rollbackToVersion failAppDataPub 100 exLog "blog" (some "v1") none).1.success
        = false := by
  decide

/-- **C5 (amended)**: a failure of the announcement-bus publish after a
successful append DOES fail the overall command: `rollbackToVersion`
returns `{success:false}` (with the broadcast error as its message) and
`announceDeployment` rethrows the error; the appended event nevertheless
remains in the log (the append is not undone). -/
theorem claim5_publish_failure_fails_command (pubOk : String → Bool)
    (now : Nat) (log : Log) (appName : String)
    (hdata : pubOk "debros-app-data" = false) :
    (∀ tag target domain,
      (getAppVersions log appName).find? (fun v => v.tag = tag) = some target →
      pubOk "debros-deploy" = true →
      (rollbackToVersion pubOk now log appName (some tag) domain).1.success = false
      ∧ (rollbackToVersion pubOk now log appName (some tag) domain).2.1 =
          log ++ [deployEvent appName target.cid target.tag
            (rollbackDomain appName domain) now])
    ∧ (∀ cid version dom,
        pubOk "debros-deploy" = true →
        (announceDeployment pubOk now log cid appName version dom).1 =
          Except.error "failed to publish to debros-app-data"
        ∧ (announceDeployment pubOk now log cid appName version dom).2.1 =
            log ++ [deployEvent appName cid version
              (normalizeDomain appName dom) now]) := by
  constructor
  · intro tag target domain hfind hdeploy
    have hlen := length_ne_zero_of_find?_some hfind
    unfold rollbackToVersion storeAppData
    simp [hlen, hfind, hdeploy, hdata, cmdFail]
  · intro cid version dom hdeploy
    unfold announceDeployment storeAppData
    simp [hdeploy, hdata]

/-- Witness for C5 (amended) with the concrete failing transport. -/
theorem claim5_witness :
    ((rollbackToVersion failAppDataPub 100 exLog "blog" (some "v1") none).1.success = false
      ∧ (rollbackToVersion failAppDataPub 100 exLog "blog" (some "v1") none).2.1 =
          exLog ++ [deployEvent "blog" "cid1" "v1" (rollbackDomain "blog" none) 100])
    ∧ ((announceDeployment failAppDataPub 100 exLog "c9" "blog" "v9" "").1 =
          Except.error "failed to publish to debros-app-data"
      ∧ (announceDeployment failAppDataPub 100 exLog "c9" "blog" "v9" "").2.1 =
          exLog ++ [deployEvent "blog" "c9" "v9" (normalizeDomain "blog" "") 100]) :=
  ⟨(claim5_publish_failure_fails_command failAppDataPub 100 exLog "blog" rfl).1
      "v1" { tag := "v1", cid := "cid1", timestamp := 10, deployed := false } none
      (by decide) rfl,
   (claim5_publish_failure_fails_command failAppDataPub 100 exLog "blog" rfl).2
      "c9" "v9" "" rfl⟩

theorem sortDesc_head_max {l : List VersionEntry} {t : VersionEntry}
    (h : (sortDesc l).head? = some t) :
    t ∈ l ∧ ∀ v ∈ l, v.timestamp ≤ t.timestamp := by
  cases hs : sortDesc l with
  | nil => rw [hs] at h; simp at h
  | cons x rest =>
    rw [hs] at h
    simp only [List.head?_cons, Option.some.injEq] at h
    subst h
    have hperm := sortDesc_perm l
    rw [hs] at hperm
    have hpair := sortDesc_pairwise l
    rw [hs] at hpair
    constructor
    · exact hperm.mem_iff.mp (List.mem_cons_self _ _)
    · intro v hv
      rcases List.mem_cons.mp (hperm.mem_iff.mpr hv) with h1 | h1
      · simp [h1]
      · exact (List.pairwise_cons.mp hpair).1 v h1

/-- Counterexample to **C3** as stated: a no-tag rollback of "blog" on the
example log appends the expected event, but the stored object carries no
`isRollback` key at all — the `AppData` literal handed to `db.add` has
exactly the keys appName/cid/version/timestamp/deployed/domain/status.
(`isRollback: true` is carried by the broadcast deployment message, not by
the appended event.) -/
theorem claim3_counterexample :
    (rollbackToVersion (fun _ => true) 100 exLog "blog" none none).2.1 =
      exLog ++ [deployEvent "blog" "cid1" "v1" "blog.debros.sol" 100]
    ∧ (((eventFields (deployEvent "blog" "cid1" "v1" "blog.debros.sol" 100)).map
          Prod.fst).contains "isRollback") = false
    ∧ (rollbackMessage "blog"
        { tag := "v1", cid := "cid1", timestamp := 10, deployed := false }
        "blog.debros.sol" 100).isRollback = some true := by
  decide

/-- **C3 (amended)**: a no-tag rollback selects, among the entries of
`getAppVersions` with `deployed = false`, one with the greatest timestamp;
it appends a new event with `deployed = true`, `status = "running"`, and
the target's cid and version, broadcasts a deployment message carrying
`isRollback: true`, and returns success with the chosen version and cid
(the `isRollback` marker lives on the broadcast message, not on the
appended event).  If the app has versions but none with `deployed =
false`, it returns the no-previous-version failure and appends nothing. -/
theorem claim3_rollback_previous_version (pubOk : String → Bool) (now : Nat)
    (log : Log) (appName : String) (domain : Option String)
    (hdeploy : pubOk "debros-deploy" = true)
    (hdata : pubOk "debros-app-data" = true) :
    ((∃ v ∈ getAppVersions log appName, v.deployed = false) →
      ∃ target,
        (sortDesc ((getAppVersions log appName).filter
          (fun v => !v.deployed))).head? = some target
        ∧ target ∈ getAppVersions log appName
        ∧ target.deployed = false
        ∧ (∀ v ∈ getAppVersions log appName, v.deployed = false →
            v.timestamp ≤ target.timestamp)
        ∧ rollbackToVersion pubOk now log appName none domain =
            ({ success := true, message := none, version := some target.tag,
               cid := some target.cid },
             log ++ [deployEvent appName target.cid target.tag
               (rollbackDomain appName domain) now],
             [Effect.publish
                (rollbackMessage appName target (rollbackDomain appName domain) now),
              Effect.dbAdd (deployEvent appName target.cid target.tag
                (rollbackDomain appName domain) now),
              Effect.publish
                (appDataMessage
                  (deployEvent appName target.cid target.tag
                    (rollbackDomain appName domain) now)
                  now)]))
    ∧ (¬ (getAppVersions log appName).length = 0 →
        (∀ v ∈ getAppVersions log appName, v.deployed = true) →
        rollbackToVersion pubOk now log appName none domain =
          (cmdFail "No previous versions found to rollback to", log, [])) := by
  constructor
  · rintro ⟨v, hv, hdep⟩
    have hvf : v ∈ (getAppVersions log appName).filter (fun v => !v.deployed) := by
      rw [List.mem_filter]
      exact ⟨hv, by simp [hdep]⟩
    cases hs : sortDesc ((getAppVersions log appName).filter (fun v => !v.deployed)) with
    | nil =>
      exfalso
      have := (sortDesc_perm _).mem_iff.mpr hvf
      rw [hs] at this
      simp at this
    | cons t rest =>
      have hhead : (sortDesc ((getAppVersions log appName).filter
          (fun v => !v.deployed))).head? = some t := by
        rw [hs]; rfl
      obtain ⟨htf, hmax⟩ := sortDesc_head_max hhead
      have htf' := List.mem_filter.mp htf
      have hlen : ¬ (getAppVersions log appName).length = 0 := by
        intro h0
        rw [List.length_eq_zero] at h0
        rw [h0] at hv
        simp at hv
      refine ⟨t, rfl, htf'.1, by simpa using htf'.2, ?_, ?_⟩
      · intro u hu hud
        exact hmax u (List.mem_filter.mpr ⟨hu, by simp [hud]⟩)
      · unfold rollbackToVersion storeAppData
        simp [hlen, hhead, hdeploy, hdata]
  · intro hlen hall
    have hfl : (getAppVersions log appName).filter (fun v => !v.deployed) = [] := by
      rw [List.filter_eq_nil_iff]
      intro u hu
      simp [hall u hu]
    unfold rollbackToVersion
    simp [hlen, hfl, sortDesc]

/-- Witness for C3 (amended) at the example log: the target is `v1` (the
latest non-deployed entry) and the rollback appends the v1 redeployment
event. -/
theorem claim3_witness :
    ∃ target,
      (sortDesc ((getAppVersions exLog "blog").filter
        (fun v => !v.deployed))).head? = some target
      ∧ target ∈ getAppVersions exLog "blog"
      ∧ target.deployed = false
      ∧ (∀ v ∈ getAppVersions exLog "blog", v.deployed = false →
          v.timestamp ≤ target.timestamp)
      ∧ rollbackToVersion (fun _ => true) 100 exLog "blog" none none =
          ({ success := true, message := none, version := some target.tag,
             cid := some target.cid },
           exLog ++ [deployEvent "blog" target.cid target.tag
             (rollbackDomain "blog" none) 100],
           [Effect.publish
              (rollbackMessage "blog" target (rollbackDomain "blog" none) 100),
            Effect.dbAdd (deployEvent "blog" target.cid target.tag
              (rollbackDomain "blog" none) 100),
            Effect.publish
              (appDataMessage
                (deployEvent "blog" target.cid target.tag
                  (rollbackDomain "blog" none) 100)
                100)]) :=
  (claim3_rollback_previous_version (fun _ => true) 100 exLog "blog" none rfl rfl).1
    ⟨{ tag := "v1", cid := "cid1", timestamp := 10, deployed := false },
     by decide, rfl⟩

end DebrosCLI
